import Mathlib

/-!
# raycast-demo: a verification development

Shallow embedding of `main.go` and `map.go` of the terminal raycaster, and theorems about
the column projector (`toColumn`), the ray march (`castRay`), the movement controller
(`keyFunc`, `handleInput`), the colour band selection of `draw` and the map loader (`Load`).

Conventions of the embedding

* Go `int` is `Int`.  Where an operand comes straight from the metadata file (the turn
  speed) the 64-bit wrap-around of `+` and `-` is explicit (`wrap64`); window sizes, slice
  lengths and row counts stay far below `2 ^ 63` and use plain integer arithmetic.
  Go's `/` and `%` on integers truncate toward zero: `Int.tdiv`, `Int.tmod`.
* A finite `float64` is the rational number it denotes.  Every arithmetic operation is the
  exact rational operation followed by `round64`, rounding to nearest, ties to even, with a
  53 bit significand and gradual underflow.  Each operation is rounded on its own (no fused
  multiply-add).  Infinities and NaN are not represented; none of the quantities below can
  overflow.
* `math.Sin`, `math.Cos`, `math.Sqrt`, `math.Pow` and the result of converting an
  out-of-range `float64` to `int` belong to the Go runtime, not to the repository: they are
  the fields of a `Platform` that every function using them takes as an argument.
* A Go `map[string]T` is an association list read with `List.lookup`.
* A run-time panic (index out of range, integer division by zero) is the outcome `fault`.
-/

namespace Raycast

/-! ## Machine integers -/

/-- Two's complement wrap-around of a 64-bit signed result. -/
def wrap64 (x : Int) : Int := (x + 2 ^ 63) % 2 ^ 64 - 2 ^ 63

/-- Go's integer remainder `a % b` (sign of the dividend). -/
def goRem (a b : Int) : Int := Int.tmod a b

/-- Go's integer quotient `a / b` (truncated toward zero). -/
def goQuo (a b : Int) : Int := Int.tdiv a b

/-! ## float64 -/

/-- Nearest integer, ties to even. -/
def roundNE (y : ℚ) : Int :=
  if y - ⌊y⌋ < 1 / 2 then ⌊y⌋
  else if 1 / 2 < y - ⌊y⌋ then ⌊y⌋ + 1
  else if ⌊y⌋ % 2 = 0 then ⌊y⌋ else ⌊y⌋ + 1

/-- Exponent of the unit in the last place of the binade of `x` (53 bit significand,
smallest normal exponent `-1022`). -/
def ulpExp (x : ℚ) : Int := max (Int.log 2 |x|) (-1022) - 52

/-- Rounding of an exact result to `float64`. -/
def round64 (x : ℚ) : ℚ := (roundNE (x / 2 ^ ulpExp x) : ℚ) * 2 ^ ulpExp x

/-- The conversion `float64(n)` of an `int`. -/
def toFloat64 (n : Int) : ℚ := round64 n

/-- The constant `math.Pi` converted to `float64`. -/
def piF : ℚ := round64 3.14159265358979323846264338327950288419716939937510582097494459

/-- What the program takes from the Go runtime. -/
structure Platform where
  /-- Function `math.Sin`. -/
  sin : ℚ → ℚ
  /-- Function `math.Cos`. -/
  cos : ℚ → ℚ
  /-- Function `math.Sqrt`. -/
  sqrt : ℚ → ℚ
  /-- Function `math.Pow`. -/
  pow : ℚ → ℚ → ℚ
  /-- Result of `int(x)` when the truncation of `x` is not an `int` (implementation-dependent). -/
  indefinite : ℚ → Int

/-- Truncation toward zero. -/
def truncate (x : ℚ) : Int := if 0 ≤ x then ⌊x⌋ else ⌈x⌉

/-- The conversion `int(x)` of a `float64`. -/
def toInt (P : Platform) (x : ℚ) : Int :=
  if -2 ^ 63 ≤ truncate x ∧ truncate x < 2 ^ 63 then truncate x else P.indefinite x

/-! ## Outcomes -/

/-- Result of a function that returns `(value, error)` and may panic. -/
inductive Outcome (α : Type) where
  | ok (a : α)
  | error (msg : String)
  | fault
  deriving DecidableEq, Repr

/-- Slice indexing `l[i]` with a Go `int` index; `none` is the index-out-of-range panic. -/
def goIndex {α : Type} (l : List α) (i : Int) : Option α :=
  if 0 ≤ i then l.get? i.toNat else none

/-! ## map.go -/

/-- Tile data. -/
structure TileData where
  Passable : Bool
  Colors : List Int
  deriving DecidableEq, Repr

/-- Map data, the contents of `metadata.json`. -/
structure MapData where
  Speed : ℚ
  TurnSpeed : Int
  SpawnCoords : ℚ × ℚ
  Tiles : List (String × TileData)
  deriving DecidableEq, Repr

/-- Game map. -/
structure Map where
  md : MapData
  tiles : List (List String)
  h : Int
  w : Int
  deriving DecidableEq, Repr

/-- Number of bytes of the UTF-8 encoding: Go's `len` of a string. -/
def byteLen (line : List Char) : Nat := (line.map Char.utf8Size).sum

/-- The call `strings.Split(line, "")`: one string per UTF-8 sequence. -/
def explode (line : List Char) : List String := line.map String.singleton

/-- Function `Load`.  `data` is the result of `os.ReadFile(dir)` (valid UTF-8 text) and `md` the
result of `loadMD` on the metadata file next to it. -/
def Load (data : Except String String) (md : Except String MapData) : Except String Map :=
  match data with
  | .error e => .error e
  | .ok text =>
    let lines := text.toList.splitOn '\n'
    let tiles := lines.map explode
    match md with
    | .error e => .error e
    | .ok md => .ok { md := md, tiles := tiles, h := lines.length, w := byteLen (lines.headD []) }

/-! ## main.go -/

/-- The view cone of the player. -/
def coneView : Int := 89

/-- Constant `maxDist`. -/
def maxDist : ℚ := 20

/-- The package-level variables of `main.go` that the modelled functions read or write. -/
structure State where
  wHeight : Int
  wWidth : Int
  pY : ℚ
  pX : ℚ
  pA : Int
  running : Bool
  m : Map
  tileColorMap : List (String × List Int)
  deriving DecidableEq, Repr

/-- Keys read by `win.GetChar()`. -/
inductive Key where
  | KEY_ESC
  | KEY_UP
  | KEY_DOWN
  | KEY_LEFT
  | KEY_RIGHT
  | less
  | greater
  | unmapped (code : Int)
  deriving DecidableEq, Repr

/-- Function `pRadA`: the player angle in rads. -/
def pRadA (s : State) : ℚ := round64 (round64 (toFloat64 s.pA * piF) / 180)

/-- New angle after the `KEY_LEFT` handler. -/
def turnLeft (turnSpeed pA : Int) : Int := goRem (wrap64 (pA - turnSpeed)) 360

/-- New angle after the `KEY_RIGHT` handler. -/
def turnRight (turnSpeed pA : Int) : Int := goRem (wrap64 (pA + turnSpeed)) 360

/-- The `keyFunc` map.  A handler returns the state it leaves behind and `(newY, newX)`; the
error every handler returns is `nil`. -/
def keyFunc : Key → Option (Platform → State → State × ℚ × ℚ)
  | .KEY_ESC => some fun _ s => ({ s with running := false }, s.pY, s.pX)
  | .KEY_UP => some fun P s =>
      (s, round64 (s.pY + round64 (s.m.md.Speed * P.sin (pRadA s))),
          round64 (s.pX + round64 (s.m.md.Speed * P.cos (pRadA s))))
  | .KEY_DOWN => some fun P s =>
      (s, round64 (s.pY - round64 (s.m.md.Speed * P.sin (pRadA s))),
          round64 (s.pX - round64 (s.m.md.Speed * P.cos (pRadA s))))
  | .KEY_LEFT => some fun _ s => ({ s with pA := turnLeft s.m.md.TurnSpeed s.pA }, s.pY, s.pX)
  | .KEY_RIGHT => some fun _ s => ({ s with pA := turnRight s.m.md.TurnSpeed s.pA }, s.pY, s.pX)
  | .less => some fun P s =>
      (s, round64 (s.pY - round64 (s.m.md.Speed * P.cos (pRadA s))),
          round64 (s.pX + round64 (s.m.md.Speed * P.sin (pRadA s))))
  | .greater => some fun P s =>
      (s, round64 (s.pY + round64 (s.m.md.Speed * P.cos (pRadA s))),
          round64 (s.pX - round64 (s.m.md.Speed * P.sin (pRadA s))))
  | .unmapped _ => none

/-- The lookup `m.tiles[y][x]`; `none` is the index-out-of-range panic. -/
def tileAt (m : Map) (y x : Int) : Option String :=
  match goIndex m.tiles y with
  | none => none
  | some row => goIndex row x

/-- The bounds check of `handleInput` on the candidate position. -/
def offGrid (m : Map) (newY newX : ℚ) : Bool :=
  decide (newY < 0) || decide (newX < 0) || decide (toFloat64 m.h ≤ newY)
    || decide (toFloat64 m.w ≤ newX)

/-- Function `handleInput`, on the key returned by `win.GetChar()`. -/
def handleInput (P : Platform) (key : Key) (s : State) : Outcome State :=
  match keyFunc key with
  | none => .ok s
  | some f =>
    match f P s with
    | (s1, newY, newX) =>
      if offGrid s1.m newY newX then .ok s1
      else
        match tileAt s1.m (toInt P newY) (toInt P newX) with
        | none => .fault
        | some tile =>
          match s1.m.md.Tiles.lookup tile with
          | none => .error ("unrecognizable char: " ++ tile)
          | some data =>
            if !data.Passable then .ok s1
            else .ok { s1 with pY := newY, pX := newX }

/-- Function `toColumn`: converts distance to a column `(ceil, wall, floor)`. -/
def toColumn (P : Platform) (wHeight : Int) (dist : ℚ) : Int × Int × Int :=
  if dist = 0 then
    (goQuo (wHeight - 2) 2, 0, goQuo (wHeight - 2) 2)
  else
    let fwh := toFloat64 (wHeight - 2)
    let ceil :=
      if toInt P dist ≠ 1 ∧ toInt P dist ≠ 0 then
        toInt P |round64 (round64 (fwh / 2) - round64 (fwh / dist))|
      else 0
    (ceil, wHeight - 2 - 2 * ceil, ceil)

/-- Sample point of the ray of direction `rad` at ray parameter `i`, as a grid cell `(y, x)`. -/
def sampleCell (P : Platform) (s : State) (rad i : ℚ) : Int × Int :=
  (toInt P (round64 (s.pY + round64 (P.sin rad * i))),
   toInt P (round64 (s.pX + round64 (P.cos rad * i))))

/-- The bounds check of `castRay` on a sampled cell. -/
def outOfBounds (m : Map) (y x : Int) : Bool :=
  decide (m.h ≤ y) || decide (m.w ≤ x) || decide (y < 0) || decide (x < 0)

/-- The direction of the ray of column offset `rc`, in rads. -/
def rayRad (s : State) (rc : Int) : ℚ :=
  round64 (round64 (toFloat64 (goRem (wrap64 (s.pA + rc)) 360) * piF) / 180)

/-- The `for` loop of `castRay`, entered with ray parameter `i`.  `none`: the loop is still
running after `fuel` iterations. -/
def castRayLoop (P : Platform) (s : State) (rad : ℚ) :
    Nat → ℚ → Option (Outcome (Int × Int × Int × String))
  | 0, _ => none
  | fuel + 1, i =>
    let fy := round64 (s.pY + round64 (P.sin rad * i))
    let fx := round64 (s.pX + round64 (P.cos rad * i))
    let y := toInt P fy
    let x := toInt P fx
    if outOfBounds s.m y x then
      some (.ok ((toColumn P s.wHeight 0).1, (toColumn P s.wHeight 0).2.1,
        (toColumn P s.wHeight 0).2.2, ""))
    else
      match tileAt s.m y x with
      | none => some .fault
      | some tc =>
        match s.m.md.Tiles.lookup tc with
        | none => some (.error ("unrecognizable char: " ++ tc))
        | some data =>
          if !data.Passable then
            let dist := P.sqrt (round64 (P.pow (round64 (s.pY - fy)) 2
              + P.pow (round64 (s.pX - fx)) 2))
            some (.ok ((toColumn P s.wHeight dist).1, (toColumn P s.wHeight dist).2.1,
              (toColumn P s.wHeight dist).2.2, tc))
          else if maxDist < round64 (i + round64 (1 / 10)) then
            some (.ok ((toColumn P s.wHeight 0).1, (toColumn P s.wHeight 0).2.1,
              (toColumn P s.wHeight 0).2.2, ""))
          else castRayLoop P s rad fuel (round64 (i + round64 (1 / 10)))

/-- The ray parameter `i` at the start of iteration `k` of the loop of `castRay`:
`1.0, 1.1, ...`, each the rounded sum of its predecessor and the rounded `0.1`. -/
def rayParam : Nat → ℚ
  | 0 => 1
  | k + 1 => round64 (rayParam k + round64 (1 / 10))

/-- Function `castRay`: casts the ray of column offset `rc`. -/
def castRay (P : Platform) (fuel : Nat) (s : State) (rc : Int) :
    Option (Outcome (Int × Int × Int × String)) :=
  castRayLoop P s (rayRad s rc) fuel 1

/-- The colour band index `ci` computed in `draw` for a tile with `n` bands. -/
def bandIndex (n wallc wHeight : Int) : Int := goQuo ((n - 1) * wallc) (wHeight - 2)

/-- The colour pair selected in `draw` from the band list `colors`. -/
def selectBand (colors : List Int) (wallc wHeight : Int) : Outcome Int :=
  if wHeight - 2 = 0 then .fault
  else
    match goIndex colors (bandIndex colors.length wallc wHeight) with
    | none => .fault
    | some colorPair => .ok colorPair

/-- The "draw the wall" step of `draw` up to the choice of the colour pair, for the tile and
wall height returned by `castRay`. -/
def wallColor (s : State) (tile : String) (wallc : Int) : Outcome Int :=
  match s.tileColorMap.lookup tile with
  | some colors => selectBand colors wallc s.wHeight
  | none =>
    if tile = "" then selectBand [0] wallc s.wHeight
    else .error ("unrecognizable char: " ++ tile)

/-- The tile loop of `setup`: one colour pair per colour of every tile of the metadata, in
the order the tiles are visited.  `initPair` tells whether `nc.InitPair` accepts a pair;
`cpi` is the 16-bit pair counter. -/
def setupTiles (initPair : Int → Int → Bool) :
    Int → List (String × TileData) → Outcome (Int × List (String × List Int))
  | cpi, [] => .ok (cpi, [])
  | cpi, (t, td) :: rest =>
    let step : Outcome (Int × List Int) → Int → Outcome (Int × List Int) := fun acc c =>
      match acc with
      | .ok (k, colors) =>
        let k1 := (k + 1 + 2 ^ 15) % 2 ^ 16 - 2 ^ 15
        if initPair k1 c then .ok (k1, colors ++ [k1]) else .error "init_pair"
      | other => other
    match td.Colors.foldl step (.ok (cpi, [])) with
    | .ok (k, colors) =>
      match setupTiles initPair k rest with
      | .ok (k2, tcm) => .ok (k2, (t, colors) :: tcm)
      | .error e => .error e
      | .fault => .fault
    | .error e => .error e
    | .fault => .fault

/-! ## Example data -/

/-- A platform used to instantiate statements on concrete inputs: truncated Taylor series for
sine and cosine, the rational square root, the repeated product for natural exponents, and
the "integer indefinite" value of amd64 for out-of-range conversions. -/
def examplePlatform : Platform where
  sin := fun x => round64 (x - x ^ 3 / 6 + x ^ 5 / 120 - x ^ 7 / 5040)
  cos := fun x => round64 (1 - x ^ 2 / 2 + x ^ 4 / 24 - x ^ 6 / 720)
  sqrt := fun x => round64 (Rat.sqrt x)
  pow := fun x y => round64 (x ^ (truncate y).toNat)
  indefinite := fun _ => -2 ^ 63

/-- Metadata with a passable floor tile and a wall tile with three colour bands. -/
def exampleMd : MapData where
  Speed := 1 / 2
  TurnSpeed := 5
  SpawnCoords := (3 / 2, 1 / 2)
  Tiles := [(".", { Passable := true, Colors := [] }),
            ("#", { Passable := false, Colors := [1, 2, 3] })]

/-- Metadata whose wall tile has no colour band. -/
def noBandsMd : MapData where
  Speed := 1 / 2
  TurnSpeed := 5
  SpawnCoords := (3 / 2, 3 / 2)
  Tiles := [(".", { Passable := true, Colors := [1] }),
            ("#", { Passable := false, Colors := [] })]

/-- A state of the program on a map with the metadata `noBandsMd`, after `setup`. -/
def noBandsState : State where
  wHeight := 12
  wWidth := 91
  pY := 3 / 2
  pX := 3 / 2
  pA := 0
  running := true
  m := { md := noBandsMd, tiles := [["#", "#", "#"], ["#", ".", "#"], ["#", "#", "#"]],
         h := 3, w := 3 }
  tileColorMap := [(".", [2]), ("#", [])]

/-- The map loaded from the two-line file `"...\n."`, whose second row is shorter than the
first, with the player in its second row looking along the row. -/
def raggedState : State where
  wHeight := 12
  wWidth := 91
  pY := 3 / 2
  pX := 1 / 2
  pA := 0
  running := true
  m := { md := exampleMd, tiles := [[".", ".", "."], ["."]], h := 2, w := 3 }
  tileColorMap := [(".", []), ("#", [2, 3, 4])]

/-- A two by two map of floor tiles, with the player in its first cell. -/
def openState : State where
  wHeight := 12
  wWidth := 91
  pY := 1 / 2
  pX := 1 / 2
  pA := 0
  running := true
  m := { md := exampleMd, tiles := [[".", "."], [".", "."]], h := 2, w := 2 }
  tileColorMap := [(".", []), ("#", [2, 3, 4])]

/-! ## Rounding -/

theorem roundNE_intCast (n : Int) : roundNE (n : ℚ) = n := by
  unfold roundNE
  simp

theorem roundNE_err (y : ℚ) : |(roundNE y : ℚ) - y| ≤ 1 / 2 := by
  have h1 := Int.floor_le y
  have h2 := Int.lt_floor_add_one y
  unfold roundNE
  rw [abs_le]
  split_ifs <;> push_cast <;> constructor <;> linarith

theorem round64_zero : round64 0 = 0 := by
  unfold round64
  rw [zero_div]
  have := roundNE_intCast 0
  simp only [Int.cast_zero] at this
  rw [this]
  simp

theorem roundNE_floor_le (y : ℚ) : ⌊y⌋ ≤ roundNE y ∧ roundNE y ≤ ⌊y⌋ + 1 := by
  unfold roundNE
  split_ifs <;> constructor <;> omega

theorem roundNE_mono {x y : ℚ} (h : x ≤ y) : roundNE x ≤ roundNE y := by
  rcases lt_or_eq_of_le (Int.floor_mono h) with hlt | heq
  · have h1 := (roundNE_floor_le x).2
    have h2 := (roundNE_floor_le y).1
    omega
  · unfold roundNE
    rw [heq]
    have hxy : x - ⌊y⌋ ≤ y - ⌊y⌋ := by linarith
    split_ifs <;> first | omega | (exfalso; linarith)

theorem round64_nonneg {x : ℚ} (h : 0 ≤ x) : 0 ≤ round64 x := by
  unfold round64
  have h1 : (0 : ℚ) ≤ x / 2 ^ ulpExp x := by positivity
  have h2 := roundNE_mono h1
  have h3 := roundNE_intCast 0
  rw [Int.cast_zero] at h3
  rw [h3] at h2
  have : (0 : ℚ) ≤ (roundNE (x / 2 ^ ulpExp x) : ℚ) := by exact_mod_cast h2
  positivity

theorem round64_nonpos {x : ℚ} (h : x ≤ 0) : round64 x ≤ 0 := by
  unfold round64
  have hp : (0 : ℚ) < 2 ^ ulpExp x := by positivity
  have h1 : x / 2 ^ ulpExp x ≤ 0 := div_nonpos_of_nonpos_of_nonneg h hp.le
  have h2 := roundNE_mono h1
  have h3 := roundNE_intCast 0
  rw [Int.cast_zero] at h3
  rw [h3] at h2
  have : (roundNE (x / 2 ^ ulpExp x) : ℚ) ≤ 0 := by exact_mod_cast h2
  exact mul_nonpos_of_nonpos_of_nonneg this hp.le

/-- The binade exponent used by `round64` for a positive number. -/
theorem lt_zpow_binade (x : ℚ) :
    x < (2 : ℚ) ^ (max (Int.log 2 x) (-1022) + 1) := by
  have h1 := Int.lt_zpow_succ_log_self (R := ℚ) (b := 2) (by decide) x
  have h2 : ((2 : ℕ) : ℚ) ^ (Int.log 2 x + 1) ≤ (2 : ℚ) ^ (max (Int.log 2 x) (-1022) + 1) := by
    push_cast
    apply zpow_le_zpow_right₀ (by norm_num)
    have := le_max_left (Int.log 2 x) (-1022)
    omega
  exact lt_of_lt_of_le h1 h2

theorem zpow_two_cast (k : ℕ) : ((2 ^ k : Int) : ℚ) = (2 : ℚ) ^ (k : Int) := by
  push_cast
  rw [zpow_natCast]

theorem round64_le_binade {x : ℚ} (hx : 0 < x) :
    round64 x ≤ (2 : ℚ) ^ (max (Int.log 2 x) (-1022) + 1) := by
  have hlt := lt_zpow_binade x
  unfold round64 ulpExp
  rw [abs_of_pos hx]
  set e := max (Int.log 2 x) (-1022) with he
  have hp : (0 : ℚ) < 2 ^ (e - 52) := by positivity
  have h1 : x / 2 ^ (e - 52) ≤ ((2 ^ 53 : Int) : ℚ) := by
    rw [div_le_iff₀ hp, zpow_two_cast, ← zpow_add₀ (by norm_num)]
    have : ((53 : ℕ) : Int) + (e - 52) = e + 1 := by push_cast; ring
    rw [this]
    exact hlt.le
  have h2 := roundNE_mono h1
  rw [roundNE_intCast] at h2
  have h3 : (roundNE (x / 2 ^ (e - 52)) : ℚ) ≤ ((2 ^ 53 : Int) : ℚ) := by exact_mod_cast h2
  calc (roundNE (x / 2 ^ (e - 52)) : ℚ) * 2 ^ (e - 52)
      ≤ ((2 ^ 53 : Int) : ℚ) * 2 ^ (e - 52) := by gcongr
    _ = (2 : ℚ) ^ (e + 1) := by
      rw [zpow_two_cast, ← zpow_add₀ (by norm_num)]
      congr 1
      push_cast
      ring

theorem binade_le_round64 {x : ℚ} (hx : 0 < x) (hn : -1022 ≤ Int.log 2 x) :
    (2 : ℚ) ^ Int.log 2 x ≤ round64 x := by
  have hle := Int.zpow_log_le_self (R := ℚ) (b := 2) (by decide) hx
  push_cast at hle
  unfold round64 ulpExp
  rw [abs_of_pos hx, max_eq_left hn]
  set e := Int.log 2 x with he
  have hp : (0 : ℚ) < 2 ^ (e - 52) := by positivity
  have h1 : ((2 ^ 52 : Int) : ℚ) ≤ x / 2 ^ (e - 52) := by
    rw [le_div_iff₀ hp, zpow_two_cast, ← zpow_add₀ (by norm_num)]
    have : ((52 : ℕ) : Int) + (e - 52) = e := by push_cast; ring
    rw [this]
    exact hle
  have h2 := roundNE_mono h1
  rw [roundNE_intCast] at h2
  have h3 : ((2 ^ 52 : Int) : ℚ) ≤ (roundNE (x / 2 ^ (e - 52)) : ℚ) := by exact_mod_cast h2
  have h4 : (2 : ℚ) ^ e = ((2 ^ 52 : Int) : ℚ) * 2 ^ (e - 52) := by
    rw [zpow_two_cast, ← zpow_add₀ (by norm_num)]
    congr 1
    push_cast
    ring
  rw [h4]
  gcongr

/-- Rounding is monotone on the positive numbers. -/
theorem round64_mono_pos {x y : ℚ} (hx : 0 < x) (hxy : x ≤ y) : round64 x ≤ round64 y := by
  have hy : 0 < y := lt_of_lt_of_le hx hxy
  have hlog := Int.log_mono_right (b := 2) hx hxy
  rcases lt_or_eq_of_le (max_le_max_right (-1022) hlog) with hlt | heq
  · have hey : -1022 ≤ Int.log 2 y := by
      by_contra hcon
      rw [max_eq_right (by omega : Int.log 2 y ≤ -1022)] at hlt
      have := le_max_right (Int.log 2 x) (-1022)
      omega
    rw [max_eq_left hey] at hlt
    calc round64 x ≤ (2 : ℚ) ^ (max (Int.log 2 x) (-1022) + 1) := round64_le_binade hx
      _ ≤ (2 : ℚ) ^ Int.log 2 y := zpow_le_zpow_right₀ (by norm_num) (by omega)
      _ ≤ round64 y := binade_le_round64 hy hey
  · have hu : ulpExp x = ulpExp y := by
      unfold ulpExp
      rw [abs_of_pos hx, abs_of_pos hy, heq]
    unfold round64
    rw [hu]
    have hp : (0 : ℚ) < 2 ^ ulpExp y := by positivity
    have h1 : x / 2 ^ ulpExp y ≤ y / 2 ^ ulpExp y := div_le_div_of_nonneg_right hxy hp.le
    have h2 := roundNE_mono h1
    have h3 : (roundNE (x / 2 ^ ulpExp y) : ℚ) ≤ (roundNE (y / 2 ^ ulpExp y) : ℚ) := by
      exact_mod_cast h2
    gcongr
theorem log2_eq {r : ℚ} {e : Int} (h1 : (2 : ℚ) ^ e ≤ r) (h2 : r < (2 : ℚ) ^ (e + 1)) :
    Int.log 2 r = e := by
  have hr : 0 < r := lt_of_lt_of_le (by positivity) h1
  have ha : e ≤ Int.log 2 r := (Int.zpow_le_iff_le_log (by decide) hr).mp (by exact_mod_cast h1)
  have hb : Int.log 2 r < e + 1 := (Int.lt_zpow_iff_log_lt (by decide) hr).mp (by exact_mod_cast h2)
  omega

/-- A number with at most 53 significant bits in a normal binade is not changed by rounding. -/
theorem round64_exact {x : ℚ} (e n : Int) (he : -1022 ≤ e) (h1 : (2 : ℚ) ^ e ≤ |x|)
    (h2 : |x| < (2 : ℚ) ^ (e + 1)) (hx : x = n * (2 : ℚ) ^ (e - 52)) : round64 x = x := by
  unfold round64 ulpExp
  rw [log2_eq h1 h2, max_eq_left he]
  have hq : x / (2 : ℚ) ^ (e - 52) = n := by
    rw [hx]
    field_simp
  rw [hq, roundNE_intCast]
  exact hx.symm

theorem round64_one : round64 1 = 1 :=
  round64_exact 0 (2 ^ 52) (by decide) (by norm_num) (by norm_num) (by norm_num)

theorem round64_three_halves : round64 (3 / 2) = 3 / 2 :=
  round64_exact 0 (3 * 2 ^ 51) (by decide) (by norm_num [abs_of_pos]) (by norm_num [abs_of_pos]) (by norm_num)

theorem round64_half : round64 (1 / 2) = 1 / 2 :=
  round64_exact (-1) (2 ^ 52) (by decide) (by norm_num [abs_of_pos])
    (by norm_num [abs_of_pos]) (by norm_num)

theorem round64_two : round64 2 = 2 :=
  round64_exact 1 (2 ^ 52) (by decide) (by norm_num) (by norm_num) (by norm_num)

theorem examplePlatform_sin_zero : examplePlatform.sin 0 = 0 := by
  show round64 (0 - 0 ^ 3 / 6 + 0 ^ 5 / 120 - 0 ^ 7 / 5040) = 0
  norm_num [round64_zero]

theorem examplePlatform_cos_zero : examplePlatform.cos 0 = 1 := by
  show round64 (1 - 0 ^ 2 / 2 + 0 ^ 4 / 24 - 0 ^ 6 / 720) = 1
  norm_num [round64_one]

/-- A positive number with at most 53 significant bits above the smallest subnormal is not
changed by rounding. -/
theorem round64_dyadic (n p : Int) (h0 : 0 < n) (hn : n < 2 ^ 53) (hp : -1074 ≤ p) :
    round64 ((n : ℚ) * 2 ^ p) = (n : ℚ) * 2 ^ p := by
  have hn0 : (0 : ℚ) < n := by exact_mod_cast h0
  have hr : (0 : ℚ) < (n : ℚ) * 2 ^ p := by positivity
  have hlt : (n : ℚ) * 2 ^ p < ((2 : ℕ) : ℚ) ^ (53 + p) := by
    push_cast
    rw [zpow_add₀ (by norm_num)]
    have : (n : ℚ) < 2 ^ (53 : Int) := by
      have : (n : ℚ) < ((2 ^ 53 : Int) : ℚ) := by exact_mod_cast hn
      rw [zpow_two_cast] at this
      exact_mod_cast this
    gcongr
  have hlog : Int.log 2 ((n : ℚ) * 2 ^ p) < 53 + p :=
    (Int.lt_zpow_iff_log_lt (by decide) hr).mp hlt
  have hq : ulpExp ((n : ℚ) * 2 ^ p) ≤ p := by
    unfold ulpExp
    rw [abs_of_pos hr]
    have := max_le (show Int.log 2 ((n : ℚ) * 2 ^ p) ≤ p + 52 by omega)
      (show (-1022 : Int) ≤ p + 52 by omega)
    omega
  unfold round64
  set q := ulpExp ((n : ℚ) * 2 ^ p) with hqdef
  obtain ⟨k, hk⟩ := Int.eq_ofNat_of_zero_le (show 0 ≤ p - q by omega)
  have hdiv : (n : ℚ) * 2 ^ p / 2 ^ q = ((n * 2 ^ k : Int) : ℚ) := by
    rw [mul_div_assoc, ← zpow_sub₀ (by norm_num), hk]
    push_cast
    rw [zpow_natCast]
  rw [hdiv, roundNE_intCast]
  push_cast
  rw [mul_assoc, ← zpow_natCast, ← zpow_add₀ (by norm_num)]
  congr 2
  omega

/-- A positive rounded value is a fixed point of the rounding. -/
theorem round64_idem_pos {x : ℚ} (hx : 0 < x) : round64 (round64 x) = round64 x := by
  have hlt := lt_zpow_binade x
  have hval : round64 x = (roundNE (x / 2 ^ ulpExp x) : ℚ) * 2 ^ ulpExp x := rfl
  have hu : ulpExp x = max (Int.log 2 x) (-1022) - 52 := by
    unfold ulpExp
    rw [abs_of_pos hx]
  have hp : (0 : ℚ) < 2 ^ ulpExp x := by positivity
  have hge : -1074 ≤ ulpExp x := by
    have := le_max_right (Int.log 2 x) (-1022)
    omega
  have h1 : x / 2 ^ ulpExp x ≤ ((2 ^ 53 : Int) : ℚ) := by
    rw [div_le_iff₀ hp, zpow_two_cast, ← zpow_add₀ (by norm_num)]
    have : ((53 : ℕ) : Int) + ulpExp x = max (Int.log 2 x) (-1022) + 1 := by
      rw [hu]
      push_cast
      ring
    rw [this]
    exact hlt.le
  have h2 := roundNE_mono h1
  rw [roundNE_intCast] at h2
  have h3 : (0 : ℚ) ≤ x / 2 ^ ulpExp x := by positivity
  have h4 := roundNE_mono h3
  have h5 := roundNE_intCast 0
  rw [Int.cast_zero] at h5
  rw [h5] at h4
  rw [hval]
  generalize roundNE (x / 2 ^ ulpExp x) = n at h2 h4
  generalize ulpExp x = p at hge
  rcases lt_or_eq_of_le h4 with hpos | hzero
  · rcases lt_or_eq_of_le h2 with hlt' | heq
    · exact round64_dyadic n p hpos hlt' hge
    · have e : (n : ℚ) * 2 ^ p = ((2 ^ 52 : Int) : ℚ) * 2 ^ (p + 1) := by
        rw [heq, zpow_add₀ (by norm_num)]
        push_cast
        ring
      rw [e]
      exact round64_dyadic (2 ^ 52) (p + 1) (by decide) (by decide) (by omega)
  · rw [← hzero]
    simp [round64_zero]

/-- An integer bound below a rounded value is still below it after conversion to `float64`. -/
theorem toFloat64_le_of_le (n : Int) (z : ℚ) (hz0 : 0 ≤ round64 z)
    (h : (n : ℚ) ≤ round64 z) : toFloat64 n ≤ round64 z := by
  unfold toFloat64
  rcases le_or_lt (n : ℚ) 0 with hn | hn
  · exact le_trans (round64_nonpos hn) hz0
  · have hz : 0 < z := by
      by_contra hcon
      have := round64_nonpos (not_lt.mp hcon)
      linarith
    have := round64_mono_pos hn h
    rwa [round64_idem_pos hz] at this

theorem round64_err (x : ℚ) : |round64 x - x| ≤ |x| / 2 ^ 53 + 1 / 2 ^ 1075 := by
  rcases eq_or_ne x 0 with rfl | hx
  · rw [round64_zero]
    norm_num
  · have hpos : 0 < |x| := abs_pos.mpr hx
    have hp : (0 : ℚ) < 2 ^ ulpExp x := by positivity
    have herr := roundNE_err (x / 2 ^ ulpExp x)
    have heq : round64 x - x = ((roundNE (x / 2 ^ ulpExp x) : ℚ) - x / 2 ^ ulpExp x) * 2 ^ ulpExp x := by
      unfold round64
      field_simp
    rw [heq, abs_mul, abs_of_pos hp]
    have hu : (2 : ℚ) ^ ulpExp x ≤ |x| / 2 ^ 52 + 1 / 2 ^ 1074 := by
      unfold ulpExp
      rcases le_total (Int.log 2 |x|) (-1022) with hl | hl
      · rw [max_eq_right hl]
        have : (0:ℚ) ≤ |x| / 2 ^ 52 := by positivity
        have e : (2 : ℚ) ^ ((-1022 : Int) - 52) = 1 / 2 ^ 1074 := by
          rw [show ((-1022 : Int) - 52) = -(1074 : ℕ) by norm_num, zpow_neg, zpow_natCast]
          simp
        rw [e]
        linarith
      · rw [max_eq_left hl]
        have hz := Int.zpow_log_le_self (R := ℚ) (b := 2) (by decide) hpos
        rw [zpow_sub₀ (by norm_num)]
        have : (2:ℚ) ^ Int.log 2 |x| / 2 ^ (52 : Int) ≤ |x| / 2 ^ 52 := by
          have e : (2 : ℚ) ^ (52 : Int) = 2 ^ 52 := by norm_cast
          rw [e]
          apply div_le_div_of_nonneg_right _ (by positivity)
          exact_mod_cast hz
        have : (0:ℚ) ≤ 1 / 2 ^ 1074 := by positivity
        linarith
    calc |(roundNE (x / 2 ^ ulpExp x) : ℚ) - x / 2 ^ ulpExp x| * 2 ^ ulpExp x
        ≤ 1 / 2 * 2 ^ ulpExp x := by gcongr
      _ ≤ 1 / 2 * (|x| / 2 ^ 52 + 1 / 2 ^ 1074) := by gcongr
      _ = |x| / 2 ^ 53 + 1 / 2 ^ 1075 := by ring

/-! ## Turning -/

theorem wrap64_of_range {x : Int} (h1 : -2 ^ 63 ≤ x) (h2 : x < 2 ^ 63) : wrap64 x = x := by
  unfold wrap64
  omega

theorem goRem_bounds (a : Int) : -360 < goRem a 360 ∧ goRem a 360 < 360 := by
  unfold goRem
  have h := Int.tmod_add_tdiv a 360
  rcases Int.le_total 0 a with ha | ha
  · have h1 := Int.tmod_nonneg 360 ha
    have h2 := Int.tmod_lt_of_pos a (show (0 : Int) < 360 by decide)
    omega
  · have h3 : Int.tmod (-a) 360 = -Int.tmod a 360 := by
      rw [Int.tmod_def, Int.tmod_def, Int.neg_tdiv]
      ring
    have h1 := Int.tmod_nonneg 360 (show 0 ≤ -a by omega)
    have h2 := Int.tmod_lt_of_pos (-a) (show (0 : Int) < 360 by decide)
    omega

theorem goRem_of_nonneg {a : Int} (h : 0 ≤ a) : goRem a 360 = a % 360 :=
  Int.tmod_eq_emod h (by decide)

theorem goRem_of_neg_small {a : Int} (h1 : -360 < a) (h2 : a < 0) : goRem a 360 = a := by
  unfold goRem
  have h3 : Int.tmod (-a) 360 = -a := Int.tmod_eq_of_lt (by omega) (by omega)
  have h4 : Int.tmod (-a) 360 = -Int.tmod a 360 := by
    rw [Int.tmod_def, Int.tmod_def, Int.neg_tdiv]
    ring
  omega

/-- C2, as stated, fails: from the angle `0` with turn speed `5` the `KEY_LEFT` handler
leaves the angle `-5`, outside `[0, 360)`. -/
theorem turnLeft_leaves_range :
    (0 : Int) ≤ 0 ∧ (0 : Int) < 360 ∧ (0 : Int) ≤ 5 ∧ turnLeft 5 0 = -5 ∧
      ¬ (0 ≤ turnLeft 5 0 ∧ turnLeft 5 0 < 360) := by
  decide

/-- C2, amended: for every angle and every turn speed that are Go `int`s with
`TurnSpeed ≥ 0` and the angle in `(-360, 360)`, both turn handlers leave the angle in
`(-360, 360)`; the `KEY_RIGHT` handler keeps an angle of `[0, 360)` in `[0, 360)` as long as
`pA + TurnSpeed` does not overflow. -/
theorem turn_keeps_open_range (turnSpeed pA : Int) (hts : 0 ≤ turnSpeed)
    (hlo : -360 < pA) (hhi : pA < 360) :
    (-360 < turnLeft turnSpeed pA ∧ turnLeft turnSpeed pA < 360) ∧
    (-360 < turnRight turnSpeed pA ∧ turnRight turnSpeed pA < 360) ∧
    (0 ≤ pA → pA + turnSpeed < 2 ^ 63 →
      0 ≤ turnRight turnSpeed pA ∧ turnRight turnSpeed pA < 360) := by
  refine ⟨goRem_bounds _, goRem_bounds _, ?_⟩
  intro h0 hov
  unfold turnRight
  rw [wrap64_of_range (by omega) hov, goRem_of_nonneg (by omega)]
  omega

theorem turn_keeps_open_range_witness :
    (-360 < turnLeft 5 0 ∧ turnLeft 5 0 < 360) ∧
    (-360 < turnRight 5 0 ∧ turnRight 5 0 < 360) ∧
    ((0 : Int) ≤ 0 → (0 : Int) + 5 < 2 ^ 63 → 0 ≤ turnRight 5 0 ∧ turnRight 5 0 < 360) :=
  turn_keeps_open_range 5 0 (by decide) (by decide) (by decide)

/-- Closed form of `k` right turns from an angle of `(-360, 360)` with a turn speed of
`(0, 360]`: the running sum while it is negative, its residue modulo 360 afterwards. -/
theorem turnRight_iterate (turnSpeed pA : Int) (h0 : 0 < turnSpeed) (h1 : turnSpeed ≤ 360)
    (hlo : -360 < pA) (hhi : pA < 360) (k : Nat) :
    (turnRight turnSpeed)^[k] pA =
      if pA + k * turnSpeed < 0 then pA + k * turnSpeed else (pA + k * turnSpeed) % 360 := by
  induction k with
  | zero =>
    simp only [Function.iterate_zero, id_eq, Nat.cast_zero, zero_mul, add_zero]
    split_ifs with h
    · rfl
    · exact (Int.emod_eq_of_lt (by omega) hhi).symm
  | succ k ih =>
    rw [Function.iterate_succ_apply', ih]
    have hk : ((k + 1 : Nat) : Int) * turnSpeed = k * turnSpeed + turnSpeed := by
      push_cast
      ring
    rw [hk]
    have hkn : 0 ≤ (k : Int) * turnSpeed := by positivity
    unfold turnRight
    split_ifs with ha hb hb
    · rw [wrap64_of_range (by omega) (by omega), goRem_of_neg_small (by omega) (by omega)]
      ring
    · rw [wrap64_of_range (by omega) (by omega), goRem_of_nonneg (by omega)]
      congr 1
      ring
    · omega
    · have hm := Int.emod_nonneg (pA + k * turnSpeed) (show (360 : Int) ≠ 0 by decide)
      have hm2 := Int.emod_lt_of_pos (pA + k * turnSpeed) (show (0 : Int) < 360 by decide)
      rw [wrap64_of_range (by omega) (by omega), goRem_of_nonneg (by omega)]
      omega

/-- C6, as stated, fails: the angle `-5`, which the program holds after one left turn from the
initial angle `0` with turn speed `5`, is `355` after `360 / 5 = 72` right turns. -/
theorem turnRight_cycle_from_negative :
    turnLeft 5 0 = -5 ∧ (turnRight 5)^[72] (-5) = 355 ∧ (turnRight 5)^[72] (-5) ≠ -5 := by
  have h := turnRight_iterate 5 (-5) (by decide) (by decide) (by decide) (by decide) 72
  have e : (-5 : Int) + ((72 : Nat) : Int) * 5 = 355 := by decide
  rw [e] at h
  rw [h]
  decide

/-- C6, amended: for every turn speed `TurnSpeed > 0` dividing 360 and every angle of
`(-360, 360)`, `360 / TurnSpeed` right turns return an angle of `[0, 360)` to its original
value, and take a negative angle `pA` to `pA + 360`, the same direction. -/
theorem turnRight_full_cycle (turnSpeed pA : Int) (h0 : 0 < turnSpeed) (hd : turnSpeed ∣ 360)
    (hlo : -360 < pA) (hhi : pA < 360) :
    (0 ≤ pA → (turnRight turnSpeed)^[(360 / turnSpeed).toNat] pA = pA) ∧
    (pA < 0 → (turnRight turnSpeed)^[(360 / turnSpeed).toNat] pA = pA + 360) := by
  have hle : turnSpeed ≤ 360 := Int.le_of_dvd (by decide) hd
  have hq : 0 ≤ 360 / turnSpeed := Int.ediv_nonneg (by decide) (by omega)
  have hmul : ((360 / turnSpeed).toNat : Int) * turnSpeed = 360 := by
    rw [Int.toNat_of_nonneg hq]
    exact Int.ediv_mul_cancel hd
  rw [turnRight_iterate turnSpeed pA h0 hle hlo hhi, hmul]
  constructor
  · intro h
    rw [if_neg (by omega)]
    omega
  · intro h
    rw [if_neg (by omega)]
    omega

theorem turnRight_full_cycle_witness :
    ((0 : Int) ≤ -5 → (turnRight 5)^[(360 / (5 : Int)).toNat] (-5) = -5) ∧
    ((-5 : Int) < 0 → (turnRight 5)^[(360 / (5 : Int)).toNat] (-5) = -5 + 360) :=
  turnRight_full_cycle 5 (-5) (by decide) (by decide) (by decide) (by decide)

/-! ## Colour bands -/

/-- C7: for a tile with `N ≥ 1` colour bands, inner height `H = wHeight - 2 > 0` and wall
height `0 ≤ wallc ≤ H`, the band index of `draw` is `⌊(N - 1) * wallc / H⌋`; it is a valid
index, the last one `N - 1` when `wallc = H`, and `0` whenever `(N - 1) * wallc < H`; for
`N = 3` it is `2` at `wallc = H` and `0` at `wallc = 0`. -/
theorem bandIndex_spec (N wallc wHeight : Int) (hN : 1 ≤ N) (hH : 0 < wHeight - 2)
    (h0 : 0 ≤ wallc) (h1 : wallc ≤ wHeight - 2) :
    bandIndex N wallc wHeight = ⌊(((N - 1) * wallc : Int) : ℚ) / ((wHeight - 2 : Int) : ℚ)⌋ ∧
    (0 ≤ bandIndex N wallc wHeight ∧ bandIndex N wallc wHeight < N) ∧
    (wallc = wHeight - 2 → bandIndex N wallc wHeight = N - 1) ∧
    ((N - 1) * wallc < wHeight - 2 → bandIndex N wallc wHeight = 0) ∧
    bandIndex 3 (wHeight - 2) wHeight = 2 ∧ bandIndex 3 0 wHeight = 0 := by
  have hp : 0 ≤ (N - 1) * wallc := Int.mul_nonneg (by omega) h0
  have hdiv : bandIndex N wallc wHeight = (N - 1) * wallc / (wHeight - 2) := by
    unfold bandIndex goQuo
    exact Int.tdiv_eq_ediv hp (by omega)
  have hub : (N - 1) * wallc ≤ (N - 1) * (wHeight - 2) :=
    Int.mul_le_mul_of_nonneg_left h1 (by omega)
  refine ⟨?_, ⟨?_, ?_⟩, ?_, ?_, ?_, ?_⟩
  · obtain ⟨d, hd⟩ := Int.eq_ofNat_of_zero_le (show 0 ≤ wHeight - 2 by omega)
    rw [hdiv, hd, Int.cast_natCast, Rat.floor_intCast_div_natCast]
  · rw [hdiv]
    exact Int.ediv_nonneg hp (by omega)
  · rw [hdiv]
    apply Int.ediv_lt_of_lt_mul hH
    nlinarith
  · intro h
    rw [hdiv, h]
    exact Int.mul_ediv_cancel _ (by omega)
  · intro h
    rw [hdiv]
    exact Int.ediv_eq_zero_of_lt hp h
  · unfold bandIndex goQuo
    rw [Int.tdiv_eq_ediv (by omega) (by omega)]
    exact Int.mul_ediv_cancel _ (by omega)
  · unfold bandIndex goQuo
    simp

theorem bandIndex_spec_witness :
    bandIndex 3 10 12 = ⌊(((3 - 1) * 10 : Int) : ℚ) / ((12 - 2 : Int) : ℚ)⌋ ∧
    (0 ≤ bandIndex 3 10 12 ∧ bandIndex 3 10 12 < 3) ∧
    ((10 : Int) = 12 - 2 → bandIndex 3 10 12 = 3 - 1) ∧
    (((3 : Int) - 1) * 10 < 12 - 2 → bandIndex 3 10 12 = 0) ∧
    bandIndex 3 (12 - 2) 12 = 2 ∧ bandIndex 3 0 12 = 0 :=
  bandIndex_spec 3 10 12 (by decide) (by decide) (by decide) (by decide)

/-- With at least one band, a positive inner height and a wall height of `[0, H]`, the colour
selection of `draw` does not panic: it returns the band at the computed index. -/
theorem selectBand_ok (colors : List Int) (wallc wHeight : Int) (hN : 1 ≤ colors.length)
    (hH : 0 < wHeight - 2) (h0 : 0 ≤ wallc) (h1 : wallc ≤ wHeight - 2) :
    ∃ colorPair, selectBand colors wallc wHeight = .ok colorPair ∧
      colors.get? (bandIndex colors.length wallc wHeight).toNat = some colorPair := by
  have hN' : (1 : Int) ≤ colors.length := by exact_mod_cast hN
  have hp : 0 ≤ ((colors.length : Int) - 1) * wallc := Int.mul_nonneg (by omega) h0
  have hdiv : bandIndex colors.length wallc wHeight
      = ((colors.length : Int) - 1) * wallc / (wHeight - 2) := by
    unfold bandIndex goQuo
    exact Int.tdiv_eq_ediv hp (by omega)
  have hlo : 0 ≤ bandIndex colors.length wallc wHeight := by
    rw [hdiv]
    exact Int.ediv_nonneg hp (by omega)
  have hhi : bandIndex colors.length wallc wHeight < colors.length := by
    rw [hdiv]
    apply Int.ediv_lt_of_lt_mul hH
    nlinarith
  have hlt : (bandIndex colors.length wallc wHeight).toNat < colors.length := by omega
  refine ⟨colors.get ⟨_, hlt⟩, ?_, List.get?_eq_get hlt⟩
  unfold selectBand goIndex
  rw [if_neg (by omega), if_pos hlo, List.get?_eq_get hlt]

/-! ## The column projector -/

theorem toInt_of_nonneg {x : ℚ} (P : Platform) (h0 : 0 ≤ x) (h1 : x < 2 ^ 63) :
    toInt P x = ⌊x⌋ := by
  have hf : (0 : Int) ≤ ⌊x⌋ := Int.floor_nonneg.mpr h0
  have hlt : ⌊x⌋ < 2 ^ 63 := by
    have : ((⌊x⌋ : Int) : ℚ) < ((2 ^ 63 : Int) : ℚ) := by
      push_cast
      exact lt_of_le_of_lt (Int.floor_le x) h1
    exact_mod_cast this
  unfold toInt truncate
  rw [if_pos h0, if_pos ⟨by omega, hlt⟩]

/-- The rounded `|H/2 - H/dist|` of `toColumn` stays below `H/2` for `2 ≤ dist ≤ 20`,
whatever the four roundings do within their error bounds. -/
theorem ceil_le_half (H fwh a q d dist : ℚ) (hH : 1 ≤ H) (h2 : 2 ≤ dist) (h20 : dist ≤ 20)
    (e1 : |fwh - H| ≤ |H| / 2 ^ 53 + 1 / 2 ^ 1075)
    (e2 : |a - fwh / 2| ≤ |fwh / 2| / 2 ^ 53 + 1 / 2 ^ 1075)
    (e3 : |q - fwh / dist| ≤ |fwh / dist| / 2 ^ 53 + 1 / 2 ^ 1075)
    (e4 : |d - (a - q)| ≤ |a - q| / 2 ^ 53 + 1 / 2 ^ 1075) : |d| ≤ H / 2 := by
  have hη : (1 : ℚ) / 2 ^ 1075 ≤ 1 / 2 ^ 53 := by
    apply one_div_le_one_div_of_le (by positivity)
    exact pow_le_pow_right₀ (by norm_num) (by norm_num)
  have hu : (1 : ℚ) / 2 ^ 53 ≤ 1 / 1000 := by norm_num
  have hu0 : (0 : ℚ) < 1 / 2 ^ 53 := by positivity
  have hη0 : (0 : ℚ) < 1 / 2 ^ 1075 := by positivity
  generalize (1 : ℚ) / 2 ^ 1075 = η at *
  rw [abs_of_pos (by linarith : (0 : ℚ) < H)] at e1
  rw [abs_le] at e1
  have hf : 0 < fwh := by
    have : H / 2 ^ 53 ≤ H / 1000 := by
      apply div_le_div_of_nonneg_left (by linarith) (by norm_num) (by norm_num)
    linarith
  have hdist : 0 < dist := by linarith
  have ht0 : 0 < fwh / dist := div_pos hf hdist
  have ht1 : fwh / dist ≤ fwh / 2 := div_le_div_of_nonneg_left hf.le (by norm_num) h2
  have ht2 : fwh / 20 ≤ fwh / dist := div_le_div_of_nonneg_left hf.le hdist h20
  generalize fwh / dist = t at *
  rw [abs_of_pos (by linarith : (0 : ℚ) < fwh / 2), abs_le] at e2
  rw [abs_of_pos ht0, abs_le] at e3
  rw [abs_le] at e4
  have hH53 : H / 2 ^ 53 ≤ H / 1000 :=
    div_le_div_of_nonneg_left (by linarith) (by norm_num) (by norm_num)
  have hf53 : fwh / 2 / 2 ^ 53 ≤ fwh / 2 / 1000 :=
    div_le_div_of_nonneg_left (by linarith) (by norm_num) (by norm_num)
  have ht53 : t / 2 ^ 53 ≤ t / 1000 :=
    div_le_div_of_nonneg_left (by linarith) (by norm_num) (by norm_num)
  have hH53' : 0 ≤ H / 2 ^ 53 := by positivity
  have hf53' : 0 ≤ fwh / 2 / 2 ^ 53 := by positivity
  have ht53' : 0 ≤ t / 2 ^ 53 := by positivity
  have hab : |a - q| / 2 ^ 53 ≤ |a - q| / 1000 :=
    div_le_div_of_nonneg_left (abs_nonneg _) (by norm_num) (by norm_num)
  have hab' : 0 ≤ |a - q| / 2 ^ 53 := by positivity
  have habs : |a - q| ≤ fwh * (451 / 1000) + 1 / 500 := by
    rw [abs_le]
    constructor <;> linarith
  rw [abs_le]
  constructor <;> linarith

/-- Whenever `dist` is not the no-hit value `0`, the three heights add up to the inner
height. -/
theorem toColumn_sum_of_ne_zero (P : Platform) (wHeight : Int) (dist : ℚ) (h : dist ≠ 0) :
    (toColumn P wHeight dist).1 + (toColumn P wHeight dist).2.1 + (toColumn P wHeight dist).2.2
      = wHeight - 2 := by
  unfold toColumn
  rw [if_neg h]
  simp only
  ring

/-- At the no-hit value `0` the three heights add up to twice the truncated half of the inner
height. -/
theorem toColumn_sum_zero (P : Platform) (wHeight : Int) :
    (toColumn P wHeight 0).1 + (toColumn P wHeight 0).2.1 + (toColumn P wHeight 0).2.2
      = 2 * goQuo (wHeight - 2) 2 := by
  unfold toColumn
  rw [if_pos rfl]
  simp only
  ring

/-- C1, failing input: with `wHeight = 5` (inner height 3) `toColumn(0)` is `(1, 0, 1)`, whose
sum `2` is not the inner height `3`. -/
theorem toColumn_zero_odd_height :
    toColumn examplePlatform 5 0 = (1, 0, 1) ∧
      (toColumn examplePlatform 5 0).1 + (toColumn examplePlatform 5 0).2.1
        + (toColumn examplePlatform 5 0).2.2 ≠ 5 - 2 := by
  have h : toColumn examplePlatform 5 0 = (1, 0, 1) := by
    unfold toColumn
    rw [if_pos rfl]
    decide
  rw [h]
  decide

/-- Off the no-hit value, `toColumn` returns `(c, (wHeight - 2) - 2 * c, c)` for a ceiling
`c` between `0` and half the inner height. -/
theorem toColumn_hit_shape (P : Platform) (wHeight : Int) (dist : ℚ) (hw : 2 ≤ wHeight)
    (hmax : wHeight < 2 ^ 63) (hd0 : 0 ≤ dist) (hd1 : dist ≤ 20) (hz : dist ≠ 0) :
    ∃ c : Int, toColumn P wHeight dist = (c, wHeight - 2 - 2 * c, c) ∧ 0 ≤ c ∧
      2 * c ≤ wHeight - 2 := by
  by_cases hc : toInt P dist ≠ 1 ∧ toInt P dist ≠ 0
  · -- the truncated distance is at least 2
    have hti : toInt P dist = ⌊dist⌋ := toInt_of_nonneg P hd0 (by linarith)
    have hfl : (0 : Int) ≤ ⌊dist⌋ := Int.floor_nonneg.mpr hd0
    have h2 : (2 : ℚ) ≤ dist := by
      have : (2 : Int) ≤ ⌊dist⌋ := by
        rw [hti] at hc
        omega
      exact le_trans (by exact_mod_cast this) (Int.floor_le dist)
    have hbound : |round64 (round64 (toFloat64 (wHeight - 2) / 2)
        - round64 (toFloat64 (wHeight - 2) / dist))| ≤ ((wHeight - 2 : Int) : ℚ) / 2 := by
      rcases eq_or_lt_of_le (show 0 ≤ wHeight - 2 by omega) with h0 | hpos
      · rw [← h0]
        simp [toFloat64, round64_zero]
      · unfold toFloat64
        apply ceil_le_half _ _ _ _ _ dist _ h2 hd1 (round64_err _) (round64_err _)
          (round64_err _) (round64_err _)
        have : (1 : Int) ≤ wHeight - 2 := by omega
        exact_mod_cast this
    refine ⟨toInt P |round64 (round64 (toFloat64 (wHeight - 2) / 2)
        - round64 (toFloat64 (wHeight - 2) / dist))|, ?_, ?_, ?_⟩
    · unfold toColumn
      simp only [if_neg hz, if_pos hc]
    all_goals
      have hd0' := abs_nonneg (round64 (round64 (toFloat64 (wHeight - 2) / 2)
        - round64 (toFloat64 (wHeight - 2) / dist)))
      generalize |round64 (round64 (toFloat64 (wHeight - 2) / 2)
        - round64 (toFloat64 (wHeight - 2) / dist))| = d at hbound hd0' ⊢
      have hlt : d < 2 ^ 63 := by
        have : ((wHeight - 2 : Int) : ℚ) < ((2 ^ 63 : Int) : ℚ) := by
          have : wHeight - 2 < 2 ^ 63 := by omega
          exact_mod_cast this
        push_cast at this hbound
        linarith
      rw [toInt_of_nonneg P hd0' hlt]
      first
      | exact Int.floor_nonneg.mpr hd0'
      | have : ((2 * ⌊d⌋ : Int) : ℚ) ≤ ((wHeight - 2 : Int) : ℚ) := by
          have := Int.floor_le d
          push_cast at hbound ⊢
          linarith
        exact_mod_cast this
  · refine ⟨0, ?_, le_refl 0, by omega⟩
    unfold toColumn
    simp only [if_neg hz, if_neg hc]

/-- C9: for every window height `2 ≤ wHeight` (a Go `int`) and every distance in
`[0, maxDist]`, the three values of `toColumn` are non-negative, the ceiling never exceeds
half the inner height, and off the no-hit value the wall is `(wHeight - 2) - 2 * ceil`. -/
theorem toColumn_nonneg (P : Platform) (wHeight : Int) (dist : ℚ) (hw : 2 ≤ wHeight)
    (hmax : wHeight < 2 ^ 63) (hd0 : 0 ≤ dist) (hd1 : dist ≤ maxDist) :
    0 ≤ (toColumn P wHeight dist).1 ∧ 0 ≤ (toColumn P wHeight dist).2.1 ∧
    0 ≤ (toColumn P wHeight dist).2.2 ∧
    2 * (toColumn P wHeight dist).1 ≤ wHeight - 2 ∧
    (dist ≠ 0 →
      (toColumn P wHeight dist).2.1 = wHeight - 2 - 2 * (toColumn P wHeight dist).1) := by
  by_cases hz : dist = 0
  · have h1 : 0 ≤ goQuo (wHeight - 2) 2 := Int.tdiv_nonneg (by omega) (by decide)
    have h2 : goQuo (wHeight - 2) 2 = (wHeight - 2) / 2 :=
      Int.tdiv_eq_ediv (by omega) (by decide)
    have hv : toColumn P wHeight dist = (goQuo (wHeight - 2) 2, 0, goQuo (wHeight - 2) 2) := by
      unfold toColumn
      rw [if_pos hz]
    rw [hv]
    refine ⟨h1, le_refl _, h1, ?_, fun h => absurd hz h⟩
    show 2 * goQuo (wHeight - 2) 2 ≤ wHeight - 2
    rw [h2]
    omega
  · obtain ⟨c, hv, hc0, hc1⟩ := toColumn_hit_shape P wHeight dist hw hmax hd0 hd1 hz
    rw [hv]
    exact ⟨hc0, by show 0 ≤ wHeight - 2 - 2 * c; omega, hc0, hc1, fun _ => rfl⟩

theorem toColumn_nonneg_witness :
    0 ≤ (toColumn examplePlatform 12 5).1 ∧ 0 ≤ (toColumn examplePlatform 12 5).2.1 ∧
    0 ≤ (toColumn examplePlatform 12 5).2.2 ∧
    2 * (toColumn examplePlatform 12 5).1 ≤ 12 - 2 ∧
    ((5 : ℚ) ≠ 0 →
      (toColumn examplePlatform 12 5).2.1 = 12 - 2 - 2 * (toColumn examplePlatform 12 5).1) :=
  toColumn_nonneg examplePlatform 12 5 (by decide) (by decide) (by norm_num)
    (by norm_num [maxDist])

/-! ## Colour selection in `draw` -/

/-- A tile registered with an empty band list makes the colour selection panic, whatever
the wall height and the window height. -/
theorem wallColor_of_no_bands (s : State) (tile : String) (wallc : Int)
    (h : s.tileColorMap.lookup tile = some []) : wallColor s tile wallc = .fault := by
  have hsel : selectBand [] wallc s.wHeight = .fault := by
    have hidx : goIndex ([] : List Int) (bandIndex (([] : List Int).length) wallc s.wHeight)
        = none := by
      unfold goIndex
      split_ifs <;> rfl
    unfold selectBand
    rw [hidx]
    split_ifs <;> rfl
  unfold wallColor
  rw [h]
  exact hsel

/-- C5, failing input: `setup` registers the wall tile `"#"` of `noBandsMd` with an empty band
list, and for the hit tile `"#"` with wall height `3` in a window of height `12` the colour
selection of `draw` panics (index out of range) instead of returning the "unrecognizable
char" error. -/
theorem wallColor_no_bands_faults :
    setupTiles (fun _ _ => true) 1 noBandsMd.Tiles = .ok (2, noBandsState.tileColorMap) ∧
    ("#" : String) ≠ "" ∧
    wallColor noBandsState "#" 3 = .fault ∧
    wallColor noBandsState "#" 3 ≠ .error ("unrecognizable char: " ++ "#") := by
  refine ⟨by decide, by decide, ?_, ?_⟩
  · exact wallColor_of_no_bands _ _ _ (by decide)
  · rw [wallColor_of_no_bands _ _ _ (by decide)]
    exact fun h => Outcome.noConfusion h

/-! ## Movement -/

/-- The candidate of a movement handler outside `[0, h) × [0, w)` fails the bounds check of
`handleInput`. -/
theorem offGrid_of_outside (m : Map) (zy zx : ℚ)
    (h : round64 zy < 0 ∨ round64 zx < 0 ∨ (m.h : ℚ) ≤ round64 zy ∨ (m.w : ℚ) ≤ round64 zx) :
    offGrid m (round64 zy) (round64 zx) = true := by
  simp only [offGrid, Bool.or_eq_true, decide_eq_true_eq]
  by_cases hy : round64 zy < 0
  · exact Or.inl (Or.inl (Or.inl hy))
  by_cases hx : round64 zx < 0
  · exact Or.inl (Or.inl (Or.inr hx))
  rcases h with h | h | h | h
  · exact absurd h hy
  · exact absurd h hx
  · exact Or.inl (Or.inr (toFloat64_le_of_le _ _ (not_lt.mp hy) h))
  · exact Or.inr (toFloat64_le_of_le _ _ (not_lt.mp hx) h)

/-- The handlers of the four movement keys leave the state alone and return a candidate whose
coordinates are rounded sums. -/
theorem movement_handler_shape (P : Platform) (key : Key) (s : State)
    (f : Platform → State → State × ℚ × ℚ)
    (hk : key = .KEY_UP ∨ key = .KEY_DOWN ∨ key = .less ∨ key = .greater)
    (hf : keyFunc key = some f) : ∃ zy zx, f P s = (s, round64 zy, round64 zx) := by
  rcases hk with rfl | rfl | rfl | rfl <;>
    · simp only [keyFunc, Option.some.injEq] at hf
      rw [← hf]
      exact ⟨_, _, rfl⟩

/-- C3: for every map, pose and movement command (forward, back, strafe-left, strafe-right)
whose handler is `f`: the handler changes nothing, and if the candidate `(newY, newX)` it
computes is outside `[0, h) × [0, w)`, or its truncated cell holds a tile of the metadata that
is not passable, then `handleInput` returns no error and the state it leaves, pose and
running flag included, is the one it found. -/
theorem handleInput_blocked (P : Platform) (key : Key) (s : State)
    (f : Platform → State → State × ℚ × ℚ)
    (hk : key = .KEY_UP ∨ key = .KEY_DOWN ∨ key = .less ∨ key = .greater)
    (hf : keyFunc key = some f)
    (hb : ((f P s).2.1 < 0 ∨ (f P s).2.2 < 0 ∨ (s.m.h : ℚ) ≤ (f P s).2.1
            ∨ (s.m.w : ℚ) ≤ (f P s).2.2) ∨
          ∃ tile data, tileAt s.m (toInt P (f P s).2.1) (toInt P (f P s).2.2) = some tile ∧
            s.m.md.Tiles.lookup tile = some data ∧ data.Passable = false) :
    (f P s).1 = s ∧ handleInput P key s = .ok s := by
  obtain ⟨zy, zx, hshape⟩ := movement_handler_shape P key s f hk hf
  rw [hshape] at hb ⊢
  refine ⟨rfl, ?_⟩
  unfold handleInput
  rw [hf]
  simp only
  rw [hshape]
  simp only
  by_cases hoff : offGrid s.m (round64 zy) (round64 zx) = true
  · rw [if_pos hoff]
  · rw [if_neg hoff]
    rcases hb with hb | ⟨tile, data, h1, h2, h3⟩
    · exact absurd (offGrid_of_outside s.m zy zx hb) hoff
    · rw [h1]
      simp only
      rw [h2]
      simp only [h3, Bool.not_false, if_true]

theorem pRadA_of_angle_zero (s : State) (h : s.pA = 0) : pRadA s = 0 := by
  unfold pRadA toFloat64
  rw [h]
  norm_num [round64_zero]

theorem handleInput_blocked_witness :
    handleInput examplePlatform .KEY_UP noBandsState = .ok noBandsState := by
  have ha : pRadA noBandsState = 0 := pRadA_of_angle_zero _ rfl
  have hy : round64 (noBandsState.pY + round64 (noBandsState.m.md.Speed
      * examplePlatform.sin (pRadA noBandsState))) = 3 / 2 := by
    rw [ha, examplePlatform_sin_zero]
    show round64 (3 / 2 + round64 (1 / 2 * 0)) = 3 / 2
    norm_num [round64_zero, round64_three_halves]
  have hx : round64 (noBandsState.pX + round64 (noBandsState.m.md.Speed
      * examplePlatform.cos (pRadA noBandsState))) = 2 := by
    rw [ha, examplePlatform_cos_zero]
    show round64 (3 / 2 + round64 (1 / 2 * 1)) = 2
    norm_num [round64_half, round64_two]
  have h1 : toInt examplePlatform (3 / 2) = 1 := by
    rw [toInt_of_nonneg _ (by norm_num) (by norm_num)]
    norm_num [Int.floor_eq_iff]
  have h2 : toInt examplePlatform 2 = 2 := by
    rw [toInt_of_nonneg _ (by norm_num) (by norm_num)]
    norm_num [Int.floor_eq_iff]
  refine (handleInput_blocked examplePlatform .KEY_UP noBandsState _ (Or.inl rfl) rfl
    (Or.inr ⟨"#", { Passable := false, Colors := [] }, ?_, ?_, rfl⟩)).2
  · show tileAt noBandsState.m (toInt examplePlatform (round64 _))
      (toInt examplePlatform (round64 _)) = some "#"
    rw [hy, hx, h1, h2]
    decide
  · decide

/-! ## Ragged rows -/

/-- On a map with `h` rows of at least `w` tiles each, a cell that passes the bounds check of
`castRay` is there to be read. -/
theorem tileAt_of_inBounds (m : Map) (y x : Int) (hrows : (m.tiles.length : Int) = m.h)
    (hcols : ∀ row ∈ m.tiles, m.w ≤ (row.length : Int))
    (hin : outOfBounds m y x = false) : ∃ tile, tileAt m y x = some tile := by
  simp only [outOfBounds, Bool.or_eq_false_iff, decide_eq_false_iff_not, not_le, not_lt]
    at hin
  obtain ⟨⟨⟨hy1, hx1⟩, hy0⟩, hx0⟩ := hin
  have hyl : y.toNat < m.tiles.length := by omega
  have hrow := hcols _ (List.get_mem m.tiles y.toNat hyl)
  have hxl : x.toNat < (m.tiles.get ⟨y.toNat, hyl⟩).length := by omega
  refine ⟨(m.tiles.get ⟨y.toNat, hyl⟩).get ⟨x.toNat, hxl⟩, ?_⟩
  unfold tileAt goIndex
  rw [if_pos hy0, List.get?_eq_get hyl]
  simp only
  rw [if_pos hx0, List.get?_eq_get hxl]

/-- C4, failing input: `Load` of the file `"...\n."` gives `h = 2`, `w = 3` and a second row
of one tile.  The cell `(1, 1)` passes the bounds check of `castRay`, yet `m.tiles[1][1]`
is out of range; with the player at `(1.5, 0.5)` and angle `0`, both `castRay(0)` and the
forward move of `handleInput` reach that lookup and panic. -/
theorem ragged_row_lookup_faults :
    Load (.ok "...\n.") (.ok exampleMd) = .ok raggedState.m ∧
    outOfBounds raggedState.m 1 1 = false ∧
    tileAt raggedState.m 1 1 = none ∧
    castRay examplePlatform 1 raggedState 0 = some .fault ∧
    handleInput examplePlatform .KEY_UP raggedState = .fault := by
  have h1 : toInt examplePlatform (3 / 2) = 1 := by
    rw [toInt_of_nonneg _ (by norm_num) (by norm_num)]
    norm_num [Int.floor_eq_iff]
  have h1' : toInt examplePlatform 1 = 1 := by
    rw [toInt_of_nonneg _ (by norm_num) (by norm_num)]
    norm_num
  have hob : outOfBounds raggedState.m 1 1 = false := by decide
  have hta : tileAt raggedState.m 1 1 = none := by decide
  refine ⟨rfl, hob, hta, ?_, ?_⟩
  · have hrad : rayRad raggedState 0 = 0 := by
      unfold rayRad toFloat64
      have : goRem (wrap64 (raggedState.pA + 0)) 360 = 0 := by decide
      rw [this]
      norm_num [round64_zero]
    have hy : round64 (raggedState.pY + round64 (examplePlatform.sin 0 * 1)) = 3 / 2 := by
      rw [examplePlatform_sin_zero]
      show round64 (3 / 2 + round64 (0 * 1)) = 3 / 2
      norm_num [round64_zero, round64_three_halves]
    have hx : round64 (raggedState.pX + round64 (examplePlatform.cos 0 * 1)) = 3 / 2 := by
      rw [examplePlatform_cos_zero]
      show round64 (1 / 2 + round64 (1 * 1)) = 3 / 2
      norm_num [round64_one, round64_three_halves]
    unfold castRay
    rw [hrad]
    unfold castRayLoop
    simp only [hy, hx, h1, hob, hta]
    rfl
  · have ha : pRadA raggedState = 0 := pRadA_of_angle_zero _ rfl
    have hy : round64 (raggedState.pY + round64 (raggedState.m.md.Speed
        * examplePlatform.sin (pRadA raggedState))) = 3 / 2 := by
      rw [ha, examplePlatform_sin_zero]
      show round64 (3 / 2 + round64 (1 / 2 * 0)) = 3 / 2
      norm_num [round64_zero, round64_three_halves]
    have hx : round64 (raggedState.pX + round64 (raggedState.m.md.Speed
        * examplePlatform.cos (pRadA raggedState))) = 1 := by
      rw [ha, examplePlatform_cos_zero]
      show round64 (1 / 2 + round64 (1 / 2 * 1)) = 1
      norm_num [round64_half, round64_one]
    have hoff : offGrid raggedState.m (3 / 2) 1 = false := by
      have e2 : toFloat64 raggedState.m.h = 2 := by
        show round64 ((2 : Int) : ℚ) = 2
        norm_num [round64_two]
      have e3 : toFloat64 raggedState.m.w = 3 := by
        show round64 ((3 : Int) : ℚ) = 3
        have : round64 3 = 3 :=
          round64_exact 1 (3 * 2 ^ 51) (by decide) (by norm_num) (by norm_num) (by norm_num)
        norm_num [this]
      unfold offGrid
      rw [e2, e3]
      norm_num
    unfold handleInput
    simp only [keyFunc, hy, hx, h1, h1', hoff, hta]
    rfl

/-! ## Loading -/

/-- C8, failing input: for the one-row file `"é"` (one character, two bytes of UTF-8) `Load`
sets `w = 2` although the row has a single tile. -/
theorem load_width_counts_bytes :
    ∃ m, Load (.ok "é") (.ok exampleMd) = .ok m ∧ m.h = 1 ∧ m.w = 2 ∧ m.tiles = [["é"]] ∧
      outOfBounds m 0 1 = false ∧ tileAt m 0 1 = none :=
  ⟨_, rfl, by decide, by decide, by decide, by decide, by decide⟩

theorem byteLen_of_single_bytes (line : List Char) (h : ∀ c ∈ line, c.utf8Size = 1) :
    byteLen line = line.length := by
  unfold byteLen
  induction line with
  | nil => rfl
  | cons c rest ih =>
    rw [List.map_cons, List.sum_cons, h c (List.mem_cons_self _ _),
      ih (fun d hd => h d (List.mem_cons_of_mem _ hd)), List.length_cons]
    omega

/-- For a rectangular grid of `R ≥ 1` rows of `W` single-byte characters each, joined by
newlines, `Load` gives `h = R`, `w = W` and `R` rows of `W` one-character tiles. -/
theorem Load_rectangular (rows : List (List Char)) (W : Nat) (md : MapData)
    (hne : rows ≠ [])
    (hrow : ∀ r ∈ rows, r.length = W ∧ '\n' ∉ r ∧ ∀ c ∈ r, c.utf8Size = 1) :
    ∃ m, Load (.ok (String.mk (['\n'].intercalate rows))) (.ok md) = .ok m ∧
      m.h = rows.length ∧ m.w = W ∧ m.tiles.length = rows.length ∧
      ∀ row ∈ m.tiles, row.length = W ∧ ∀ t ∈ row, t.length = 1 := by
  have hsplit : (['\n'].intercalate rows).splitOn '\n' = rows :=
    List.splitOn_intercalate rows '\n' (fun l hl => (hrow l hl).2.1) hne
  refine ⟨{ md := md, tiles := rows.map explode, h := rows.length,
            w := byteLen (rows.headD []) }, ?_, rfl, ?_, ?_, ?_⟩
  · unfold Load
    simp only [String.toList, hsplit]
  · show ((byteLen (rows.headD []) : Nat) : Int) = W
    cases rows with
    | nil => exact absurd rfl hne
    | cons r rest =>
      have hr := hrow r (List.mem_cons_self _ _)
      rw [List.headD_cons, byteLen_of_single_bytes r hr.2.2, hr.1]
  · show (rows.map explode).length = rows.length
    exact List.length_map _ _
  · intro row hrow'
    obtain ⟨r, hr, rfl⟩ := List.mem_map.mp hrow'
    refine ⟨?_, ?_⟩
    · unfold explode
      rw [List.length_map]
      exact (hrow r hr).1
    · intro t ht
      obtain ⟨c, _, rfl⟩ := List.mem_map.mp ht
      rfl

/-! ## The ray march -/

/-- One pass of `i += 0.1` moves a ray parameter of `[1, 20]` forward by at least `0.099`. -/
theorem rayParam_step {i : ℚ} (h1 : 1 ≤ i) (h20 : i ≤ 20) :
    i + 99 / 1000 ≤ round64 (i + round64 (1 / 10)) := by
  have hη : (1 : ℚ) / 2 ^ 1075 ≤ 1 / 2 ^ 53 := by
    apply one_div_le_one_div_of_le (by positivity)
    exact pow_le_pow_right₀ (by norm_num) (by norm_num)
  have hu : (1 : ℚ) / 2 ^ 53 ≤ 1 / 100000 := by norm_num
  have ec := round64_err (1 / 10)
  have es := round64_err (i + round64 (1 / 10))
  generalize (1 : ℚ) / 2 ^ 1075 = η at *
  generalize round64 (1 / 10) = c at *
  rw [abs_of_pos (by norm_num : (0 : ℚ) < 1 / 10), abs_le] at ec
  have h53 : (1 : ℚ) / 10 / 2 ^ 53 ≤ 1 / 10 / 100000 :=
    div_le_div_of_nonneg_left (by norm_num) (by norm_num) (by norm_num)
  have hc0 : 0 < i + c := by linarith
  rw [abs_of_pos hc0, abs_le] at es
  have hs53 : (i + c) / 2 ^ 53 ≤ (i + c) / 100000 :=
    div_le_div_of_nonneg_left hc0.le (by norm_num) (by norm_num)
  linarith

theorem toColumn_zero (P : Platform) (wHeight : Int) :
    toColumn P wHeight 0 = (goQuo (wHeight - 2) 2, 0, goQuo (wHeight - 2) 2) := by
  unfold toColumn
  rw [if_pos rfl]

/-- The loop of `castRay`, entered at iteration `k` with enough fuel for the remaining
iterations, returns the no-hit result when every sampled in-grid cell is passable. -/
theorem castRayLoop_all_passable (P : Platform) (s : State) (rad : ℚ)
    (hpass : ∀ k, rayParam k ≤ maxDist →
      outOfBounds s.m (sampleCell P s rad (rayParam k)).1
        (sampleCell P s rad (rayParam k)).2 = false →
      ∃ tile data, tileAt s.m (sampleCell P s rad (rayParam k)).1
          (sampleCell P s rad (rayParam k)).2 = some tile ∧
        s.m.md.Tiles.lookup tile = some data ∧ data.Passable = true)
    (fuel : Nat) : ∀ k : Nat, 200 ≤ k + fuel → rayParam k ≤ 20 →
      1 + (k : ℚ) * (99 / 1000) ≤ rayParam k →
      castRayLoop P s rad fuel (rayParam k)
        = some (.ok (goQuo (s.wHeight - 2) 2, 0, goQuo (s.wHeight - 2) 2, "")) := by
  induction fuel with
  | zero =>
    intro k hk h20 hlow
    exfalso
    have : (200 : ℚ) ≤ k := by exact_mod_cast (by omega : 200 ≤ k)
    linarith
  | succ fuel ih =>
    intro k hk h20 hlow
    have h1 : 1 ≤ rayParam k := by
      have : (0 : ℚ) ≤ (k : ℚ) * (99 / 1000) := by positivity
      linarith
    unfold castRayLoop
    simp only [toColumn_zero]
    by_cases hob : outOfBounds s.m (toInt P (round64 (s.pY + round64 (P.sin rad * rayParam k))))
        (toInt P (round64 (s.pX + round64 (P.cos rad * rayParam k)))) = true
    · rw [if_pos hob]
    · rw [if_neg hob]
      obtain ⟨tile, data, ht, hl, hp⟩ := hpass k (by unfold maxDist; exact h20)
        (by simpa [sampleCell] using hob)
      simp only [sampleCell] at ht
      rw [ht]
      simp only
      rw [hl]
      simp only [hp, Bool.not_true, Bool.false_eq_true, if_false]
      by_cases hmax : maxDist < round64 (rayParam k + round64 (1 / 10))
      · rw [if_pos hmax]
      · rw [if_neg hmax]
        have hstep := rayParam_step h1 h20
        have hnext : rayParam (k + 1) = round64 (rayParam k + round64 (1 / 10)) := rfl
        rw [← hnext] at hmax hstep ⊢
        apply ih (k + 1) (by omega)
        · unfold maxDist at hmax
          exact not_lt.mp hmax
        · push_cast
          linarith

/-- C10: for every map, pose and column offset `rc`: if every in-grid cell sampled by the
ray, at the ray parameters `1.0, 1.1, ...` up to `maxDist`, holds a tile that is in the
metadata and passable, then `castRay` leaves its loop within 200 iterations and returns the
no-hit result: no error, the empty tile and the column
`((wHeight - 2) / 2, 0, (wHeight - 2) / 2)`, which is `toColumn(0)`. -/
theorem castRay_all_passable (P : Platform) (s : State) (rc : Int) (fuel : Nat)
    (hfuel : 200 ≤ fuel)
    (hpass : ∀ k, rayParam k ≤ maxDist →
      outOfBounds s.m (sampleCell P s (rayRad s rc) (rayParam k)).1
        (sampleCell P s (rayRad s rc) (rayParam k)).2 = false →
      ∃ tile data, tileAt s.m (sampleCell P s (rayRad s rc) (rayParam k)).1
          (sampleCell P s (rayRad s rc) (rayParam k)).2 = some tile ∧
        s.m.md.Tiles.lookup tile = some data ∧ data.Passable = true) :
    castRay P fuel s rc
        = some (.ok (goQuo (s.wHeight - 2) 2, 0, goQuo (s.wHeight - 2) 2, "")) ∧
      toColumn P s.wHeight 0 = (goQuo (s.wHeight - 2) 2, 0, goQuo (s.wHeight - 2) 2) := by
  refine ⟨?_, toColumn_zero P s.wHeight⟩
  unfold castRay
  have h := castRayLoop_all_passable P s (rayRad s rc) hpass fuel 0 (by omega)
    (by norm_num [rayParam]) (by norm_num [rayParam])
  exact h

theorem castRay_all_passable_witness :
    castRay examplePlatform 200 openState 7
        = some (.ok (goQuo (openState.wHeight - 2) 2, 0, goQuo (openState.wHeight - 2) 2, "")) ∧
      toColumn examplePlatform openState.wHeight 0
        = (goQuo (openState.wHeight - 2) 2, 0, goQuo (openState.wHeight - 2) 2) := by
  apply castRay_all_passable examplePlatform openState 7 200 (le_refl 200)
  intro k _ hob
  generalize (sampleCell examplePlatform openState (rayRad openState 7) (rayParam k)).1 = y
    at hob ⊢
  generalize (sampleCell examplePlatform openState (rayRad openState 7) (rayParam k)).2 = x
    at hob ⊢
  have hb : (0 ≤ y ∧ y < 2) ∧ 0 ≤ x ∧ x < 2 := by
    have h2 : openState.m.h = 2 := rfl
    have h3 : openState.m.w = 2 := rfl
    simp only [outOfBounds, h2, h3, Bool.or_eq_false_iff, decide_eq_false_iff_not, not_le,
      not_lt] at hob
    omega
  obtain ⟨⟨hy0, hy1⟩, hx0, hx1⟩ := hb
  interval_cases y <;> interval_cases x <;>
    exact ⟨".", { Passable := true, Colors := [] }, by decide, by decide, rfl⟩

end Raycast
